import Mathlib

/-!
# Verification of the `rust_core` module of polybot

A shallow embedding of `src/rust_core/src/lib.rs` and proofs of the
specification's claims about it.

Modelling conventions:
* `f64` values are embedded as exact rationals `ℚ` (real-number semantics;
  the spec states its numeric properties up to floating-point tolerance).
* The process-wide fee cache (`static FEE_CACHE: Mutex<Option<HashMap<u64, f64>>>`)
  is embedded as an explicit association list threaded through each operation.
  The lazy `Option` initialisation is an implementation artifact: behaviourally
  the uninitialised cache is the empty map, so the empty list models it.
* `PyResult<T>` (fallible returns) is embedded as `Except FeeError T`; the one
  error the module constructs is the `PyValueError` whose message carries the
  offending price, embedded as `FeeError.outOfRange` carrying that price.
* `serde_json::Value` is embedded as the inductive `Json`; `find_arb` receives
  the result of the (external, library-side) parse as an `Option Json`, and
  `unwrap_or(Value::Null)` becomes `Option.getD Json.null`.
-/

/-- The error produced when a price is outside `[0.0, 1.0]`.
Embeds the `PyValueError` built at lib.rs lines 19-21; the constructor carries
the offending price, as the Rust message string does via `format!`. -/
inductive FeeError where
  | outOfRange (price : ℚ)
deriving DecidableEq

/-- The fee cache: `HashMap<u64, f64>` embedded as an association list from
quantized-price keys to fees.  New entries are consed at the head. -/
abbrev Cache := List (ℤ × ℚ)

/-- `HashMap::get` on the embedded cache: first binding of the key, if any. -/
def cacheLookup : Cache → ℤ → Option ℚ
  | [], _ => none
  | (k, f) :: rest, key => if k = key then some f else cacheLookup rest key

/-- lib.rs line 25: `let cache_key = (price * 1_000_000.0).round() as u64;`.
For the non-negative prices that reach this line, `f64::round` (half away
from zero) agrees with `round` (half up). -/
def cacheKey (price : ℚ) : ℤ := round (price * 1000000)

/-- lib.rs lines 43-44, the cache-bypassing fee computation itself:
`certainty = (2.0 * price - 1.0).abs()` and
`fee = (0.001).max(0.03 * (1.0 - certainty))`. -/
def feeFormula (price : ℚ) : ℚ :=
  max (1/1000) (3/100 * (1 - |2 * price - 1|))

/-- lib.rs `calculate_fee` (lines 16-53): validate the range, consult the
cache, otherwise compute the fee and insert it under the quantized key. -/
def calculate_fee (price : ℚ) (cache : Cache) : Except FeeError (ℚ × Cache) :=
  if price < 0 ∨ 1 < price then
    .error (.outOfRange price)
  else
    match cacheLookup cache (cacheKey price) with
    | some cached_fee => .ok (cached_fee, cache)
    | none => .ok (feeFormula price, (cacheKey price, feeFormula price) :: cache)

/-- lib.rs `calculate_total_cost` (lines 58-66): two fee computations (each
`?`-propagating its error) and the total
`yes_price + no_price + yes_price*yes_fee + no_price*no_fee`. -/
def calculate_total_cost (yes_price no_price : ℚ) (cache : Cache) :
    Except FeeError ((ℚ × ℚ × ℚ) × Cache) :=
  match calculate_fee yes_price cache with
  | .error e => .error e
  | .ok (yes_fee, cache1) =>
    match calculate_fee no_price cache1 with
    | .error e => .error e
    | .ok (no_fee, cache2) =>
      .ok ((yes_fee, no_fee,
            yes_price + no_price + yes_price * yes_fee + no_price * no_fee),
           cache2)

/-- lib.rs `clear_fee_cache` (lines 70-76): empties the map (always succeeds). -/
def clear_fee_cache (_cache : Cache) : Cache := []

/-- lib.rs `get_cache_size` (lines 80-83): current entry count. -/
def get_cache_size (cache : Cache) : ℕ := cache.length

/-- `serde_json::Value`, embedded.  Numbers are carried as exact rationals. -/
inductive Json where
  | null
  | bool (b : Bool)
  | num (q : ℚ)
  | str (s : String)
  | arr (elems : List Json)
  | obj (fields : List (String × Json))

/-- `Value`'s key indexing (`v["rewards"]`): field of an object, else `Null`. -/
def Json.getField : Json → String → Json
  | .obj fields, key =>
    match fields.lookup key with
    | some v => v
    | none => .null
  | _, _ => .null

/-- `Value`'s array indexing (`v[0]`): element of an array, else `Null`. -/
def Json.getIdx : Json → Nat → Json
  | .arr elems, i => elems.getD i .null
  | _, _ => .null

/-- `Value::as_f64`: the numeric payload, if the value is a number. -/
def Json.asNum : Json → Option ℚ
  | .num q => some q
  | _ => none

/-- lib.rs lines 94-95: `v["rewards"][idx]["price"].as_f64().unwrap_or(1.0)`. -/
def extractPrice (v : Json) (idx : Nat) : ℚ :=
  ((((v.getField "rewards").getIdx idx).getField "price").asNum).getD 1

/-- lib.rs `find_arb` (lines 88-111).  `parsed` is the result of the external
`serde_json::from_str` (`none` = parse failure); line 90's
`unwrap_or(Value::Null)` is `Option.getD Json.null`. -/
def find_arb (parsed : Option Json) (min_profit : ℚ) (cache : Cache) :
    Except FeeError ((Bool × ℚ × ℚ) × Cache) :=
  let v := parsed.getD Json.null
  let yes_price := extractPrice v 0
  let no_price := extractPrice v 1
  match calculate_fee yes_price cache with
  | .error e => .error e
  | .ok (yes_fee, cache1) =>
    match calculate_fee no_price cache1 with
    | .error e => .error e
    | .ok (no_fee, cache2) =>
      let total_cost := yes_price + no_price + yes_price * yes_fee + no_price * no_fee
      if total_cost < 1 - min_profit then
        .ok ((true, yes_price, no_price), cache2)
      else
        .ok ((false, 0, 0), cache2)

/-- A sequence of earlier `calculate_fee` calls, acting on the cache.  A call
that fails validation leaves the cache unchanged (the Rust function returns
before touching the cache). -/
def runCalls : List ℚ → Cache → Cache
  | [], cache => cache
  | p :: rest, cache =>
    match calculate_fee p cache with
    | .ok (_, cache') => runCalls rest cache'
    | .error _ => runCalls rest cache

/-- Soundness of a cache state: every binding was produced by the fee formula
at some in-range price whose quantized key matches the binding's key.  Every
cache reachable from the empty cache satisfies this. -/
def CacheOK (c : Cache) : Prop :=
  ∀ k f, cacheLookup c k = some f →
    ∃ q, 0 ≤ q ∧ q ≤ 1 ∧ cacheKey q = k ∧ feeFormula q = f

/-- The order-book document of the spec's end-to-end scenario A:
`{"rewards":[{"price":0.40},{"price":0.55}]}`. -/
def docA : Json :=
  Json.obj [("rewards", Json.arr
    [Json.obj [("price", Json.num (2/5))],
     Json.obj [("price", Json.num (11/20))]])]

/-! ## Helper lemmas -/

theorem feeFormula_lower (p : ℚ) : 1/1000 ≤ feeFormula p :=
  le_max_left _ _

theorem feeFormula_upper (p : ℚ) : feeFormula p ≤ 3/100 := by
  have h := abs_nonneg (2 * p - 1)
  exact max_le (by norm_num) (by nlinarith)

/-- Validation: a successful `calculate_fee` implies the price was in range. -/
theorem calculate_fee_ok_range {p : ℚ} {c : Cache} {r : ℚ × Cache}
    (h : calculate_fee p c = .ok r) : 0 ≤ p ∧ p ≤ 1 := by
  by_cases hp : p < 0 ∨ 1 < p
  · rw [calculate_fee, if_pos hp] at h
    exact absurd h (by simp)
  · push_neg at hp
    exact ⟨hp.1, hp.2⟩

/-- Unfolding `calculate_fee` on an in-range price and a cache miss. -/
theorem calculate_fee_miss {p : ℚ} (c : Cache) (h0 : 0 ≤ p) (h1 : p ≤ 1)
    (hm : cacheLookup c (cacheKey p) = none) :
    calculate_fee p c = .ok (feeFormula p, (cacheKey p, feeFormula p) :: c) := by
  rw [calculate_fee, if_neg (by push_neg; exact ⟨h0, h1⟩), hm]

/-- Unfolding `calculate_fee` on an in-range price and a cache hit. -/
theorem calculate_fee_hit {p : ℚ} {c : Cache} {f : ℚ} (h0 : 0 ≤ p) (h1 : p ≤ 1)
    (hh : cacheLookup c (cacheKey p) = some f) :
    calculate_fee p c = .ok (f, c) := by
  rw [calculate_fee, if_neg (by push_neg; exact ⟨h0, h1⟩), hh]

/-- A `calculate_fee` call never disturbs an existing cache binding. -/
theorem calculate_fee_preserves_lookup {p : ℚ} {c : Cache} {f : ℚ} {c' : Cache}
    {k : ℤ} {v : ℚ} (h : calculate_fee p c = .ok (f, c'))
    (hk : cacheLookup c k = some v) : cacheLookup c' k = some v := by
  by_cases hp : p < 0 ∨ 1 < p
  · rw [calculate_fee, if_pos hp] at h
    exact absurd h (by simp)
  · rw [calculate_fee, if_neg hp] at h
    rcases hc : cacheLookup c (cacheKey p) with _ | cached
    · rw [hc] at h
      have hc' : c' = (cacheKey p, feeFormula p) :: c :=
        ((Prod.ext_iff.mp (Except.ok.inj h)).2).symm
      subst hc'
      rw [cacheLookup]
      have hne : cacheKey p ≠ k := by
        intro he
        rw [he, hk] at hc
        exact Option.noConfusion hc
      rw [if_neg hne]
      exact hk
    · rw [hc] at h
      have hc' : c' = c := ((Prod.ext_iff.mp (Except.ok.inj h)).2).symm
      rw [hc']
      exact hk

/-- `runCalls` never disturbs an existing cache binding. -/
theorem runCalls_preserves_lookup {k : ℤ} {v : ℚ} :
    ∀ (ps : List ℚ) (c : Cache), cacheLookup c k = some v →
      cacheLookup (runCalls ps c) k = some v := by
  intro ps
  induction ps with
  | nil => intro c hc; simpa [runCalls] using hc
  | cons p rest ih =>
    intro c hc
    rw [runCalls]
    rcases h : calculate_fee p c with e | ⟨f, c'⟩
    · exact ih c hc
    · exact ih c' (calculate_fee_preserves_lookup h hc)

/-- An in-range price always yields a successful call, on any cache. -/
theorem calculate_fee_ok_of_range (p : ℚ) (c : Cache) (h0 : 0 ≤ p) (h1 : p ≤ 1) :
    ∃ f c', calculate_fee p c = .ok (f, c') := by
  rcases hc : cacheLookup c (cacheKey p) with _ | cached
  · exact ⟨_, _, calculate_fee_miss c h0 h1 hc⟩
  · exact ⟨_, _, calculate_fee_hit h0 h1 hc⟩

theorem cacheOK_nil : CacheOK [] := by
  intro k f h
  exact absurd h (by rw [cacheLookup]; exact Option.noConfusion)

/-- A successful call preserves cache soundness, and the returned fee is the
formula's value at some in-range price sharing the argument's quantized key. -/
theorem calculate_fee_cacheOK {p : ℚ} {c : Cache} {f : ℚ} {c' : Cache}
    (hok : CacheOK c) (h : calculate_fee p c = .ok (f, c')) :
    CacheOK c' ∧ ∃ q, 0 ≤ q ∧ q ≤ 1 ∧ feeFormula q = f := by
  obtain ⟨h0, h1⟩ := calculate_fee_ok_range h
  rcases hc : cacheLookup c (cacheKey p) with _ | cached
  · rw [calculate_fee_miss c h0 h1 hc] at h
    obtain ⟨hf, hc'⟩ := Prod.ext_iff.mp (Except.ok.inj h)
    subst hc'
    refine ⟨?_, p, h0, h1, hf⟩
    intro k v hv
    rw [cacheLookup] at hv
    by_cases hk : cacheKey p = k
    · rw [if_pos hk] at hv
      exact ⟨p, h0, h1, hk, Option.some.inj hv⟩
    · rw [if_neg hk] at hv
      exact hok k v hv
  · rw [calculate_fee_hit h0 h1 hc] at h
    obtain ⟨hf, hc'⟩ := Prod.ext_iff.mp (Except.ok.inj h)
    subst hc'
    obtain ⟨q, hq0, hq1, _, hqf⟩ := hok _ _ hc
    exact ⟨hok, q, hq0, hq1, hqf.trans hf⟩

/-- Any sequence of `calculate_fee` calls preserves cache soundness. -/
theorem runCalls_cacheOK : ∀ (ps : List ℚ) (c : Cache), CacheOK c →
    CacheOK (runCalls ps c) := by
  intro ps
  induction ps with
  | nil => intro c hc; simpa [runCalls] using hc
  | cons p rest ih =>
    intro c hc
    rw [runCalls]
    rcases h : calculate_fee p c with e | ⟨f, c'⟩
    · exact ih c hc
    · exact ih c' (calculate_fee_cacheOK hc h).1

/-- If every earlier call's price either equals `p` or quantizes to a key
different from `p`'s, then the binding at `p`'s key is absent or holds
exactly the formula's value at `p`. -/
theorem runCalls_key_inv (p : ℚ) :
    ∀ ps : List ℚ, (∀ q ∈ ps, q = p ∨ cacheKey q ≠ cacheKey p) →
    ∀ c : Cache,
      (cacheLookup c (cacheKey p) = none ∨
       cacheLookup c (cacheKey p) = some (feeFormula p)) →
      (cacheLookup (runCalls ps c) (cacheKey p) = none ∨
       cacheLookup (runCalls ps c) (cacheKey p) = some (feeFormula p)) := by
  intro ps
  induction ps with
  | nil => intro _ c hc; simpa [runCalls] using hc
  | cons q rest ih =>
    intro hps c hc
    rw [runCalls]
    rcases h : calculate_fee q c with e | ⟨f, c'⟩
    · exact ih (fun r hr => hps r (List.mem_cons_of_mem _ hr)) c hc
    · refine ih (fun r hr => hps r (List.mem_cons_of_mem _ hr)) c' ?_
      obtain ⟨hq0, hq1⟩ := calculate_fee_ok_range h
      rcases hl : cacheLookup c (cacheKey q) with _ | cached
      · rw [calculate_fee_miss c hq0 hq1 hl] at h
        obtain ⟨hf, hc'⟩ := Prod.ext_iff.mp (Except.ok.inj h)
        subst hc'
        rcases hps q (List.mem_cons_self _ _) with hqp | hqk
        · subst hqp
          right
          rw [cacheLookup, if_pos rfl]
        · rw [cacheLookup, if_neg hqk]
          exact hc
      · rw [calculate_fee_hit hq0 hq1 hl] at h
        obtain ⟨hf, hc'⟩ := Prod.ext_iff.mp (Except.ok.inj h)
        subst hc'
        exact hc

/-! ## Concrete evaluations -/

theorem cacheKey_one : cacheKey 1 = 1000000 := by
  norm_num [cacheKey, round_eq]

theorem cacheKey_half : cacheKey (1/2) = 500000 := by
  norm_num [cacheKey, round_eq]

theorem cacheKey_twoFifths : cacheKey (2/5) = 400000 := by
  norm_num [cacheKey, round_eq]

theorem cacheKey_elevenTwentieths : cacheKey (11/20) = 550000 := by
  norm_num [cacheKey, round_eq]

theorem cacheKey_nearHalf : cacheKey (5000004/10000000) = 500000 := by
  norm_num [cacheKey, round_eq]

theorem feeFormula_one : feeFormula 1 = 1/1000 := by
  norm_num [feeFormula]

theorem feeFormula_zero : feeFormula 0 = 1/1000 := by
  norm_num [feeFormula]

theorem feeFormula_half : feeFormula (1/2) = 3/100 := by
  norm_num [feeFormula]

theorem feeFormula_twoFifths : feeFormula (2/5) = 3/125 := by
  rw [feeFormula, abs_of_nonpos (by norm_num)]
  norm_num

theorem feeFormula_elevenTwentieths : feeFormula (11/20) = 27/1000 := by
  rw [feeFormula, abs_of_nonneg (by norm_num)]
  norm_num

theorem feeFormula_nearHalf : feeFormula (5000004/10000000) = 3749997/125000000 := by
  rw [feeFormula, abs_of_nonneg (by norm_num)]
  norm_num

theorem extractPrice_docA_yes : extractPrice docA 0 = 2/5 := rfl

theorem extractPrice_docA_no : extractPrice docA 1 = 11/20 := rfl

/-- First call of scenario A on the empty cache: a miss at price 0.40. -/
theorem calculate_fee_docA_yes :
    calculate_fee (2/5) [] =
      .ok (feeFormula (2/5), [(cacheKey (2/5), feeFormula (2/5))]) :=
  calculate_fee_miss [] (by norm_num) (by norm_num) rfl

/-- Second call of scenario A: a miss at price 0.55, key 550000 ≠ 400000. -/
theorem calculate_fee_docA_no :
    calculate_fee (11/20) [(cacheKey (2/5), feeFormula (2/5))] =
      .ok (feeFormula (11/20),
        [(cacheKey (11/20), feeFormula (11/20)), (cacheKey (2/5), feeFormula (2/5))]) := by
  refine calculate_fee_miss _ (by norm_num) (by norm_num) ?_
  rw [cacheLookup, if_neg, cacheLookup]
  rw [cacheKey_twoFifths, cacheKey_elevenTwentieths]
  decide

/-- The full scenario-A run: arbitrage found, prices (0.40, 0.55) returned. -/
theorem find_arb_docA :
    find_arb (some docA) 0 [] =
      .ok ((true, 2/5, 11/20),
        [(cacheKey (11/20), feeFormula (11/20)), (cacheKey (2/5), feeFormula (2/5))]) := by
  rw [find_arb]
  simp only [Option.getD, extractPrice_docA_yes, extractPrice_docA_no,
    calculate_fee_docA_yes, calculate_fee_docA_no]
  rw [if_pos]
  rw [feeFormula_twoFifths, feeFormula_elevenTwentieths]
  norm_num

theorem extractPrice_null (idx : Nat) : extractPrice Json.null idx = 1 := rfl

theorem extractPrice_emptyObj (idx : Nat) : extractPrice (Json.obj []) idx = 1 := rfl

/-- Unfolding `find_arb` when both fee computations succeed. -/
theorem find_arb_eq (parsed : Option Json) (mp : ℚ) (c : Cache)
    (fy fn : ℚ) (c1 c2 : Cache)
    (hy : calculate_fee (extractPrice (parsed.getD Json.null) 0) c = .ok (fy, c1))
    (hn : calculate_fee (extractPrice (parsed.getD Json.null) 1) c1 = .ok (fn, c2)) :
    find_arb parsed mp c =
      .ok (if extractPrice (parsed.getD Json.null) 0 +
              extractPrice (parsed.getD Json.null) 1 +
              extractPrice (parsed.getD Json.null) 0 * fy +
              extractPrice (parsed.getD Json.null) 1 * fn < 1 - mp
           then (true, extractPrice (parsed.getD Json.null) 0,
                 extractPrice (parsed.getD Json.null) 1)
           else (false, 0, 0), c2) := by
  rw [find_arb]
  simp only [hy, hn]
  split
  · rfl
  · rfl

/-- `find_arb` propagates a failure of the yes-side fee computation. -/
theorem find_arb_error_yes (parsed : Option Json) (mp : ℚ) (c : Cache)
    (e : FeeError)
    (hy : calculate_fee (extractPrice (parsed.getD Json.null) 0) c = .error e) :
    find_arb parsed mp c = .error e := by
  rw [find_arb]
  simp only [hy]

/-- `find_arb` propagates a failure of the no-side fee computation. -/
theorem find_arb_error_no (parsed : Option Json) (mp : ℚ) (c : Cache)
    (fy : ℚ) (c1 : Cache) (e : FeeError)
    (hy : calculate_fee (extractPrice (parsed.getD Json.null) 0) c = .ok (fy, c1))
    (hn : calculate_fee (extractPrice (parsed.getD Json.null) 1) c1 = .error e) :
    find_arb parsed mp c = .error e := by
  rw [find_arb]
  simp only [hy, hn]

/-! ## Claims -/

/-- C1: for every price `p ∈ [0,1]`, `calculate_fee` succeeds on any cache,
and when the fee is computed rather than served from a previously populated
cache entry it is exactly `max(0.001, 0.03 * (1 - |2p - 1|))`; in particular
the fee is 0.03 at `p = 1/2` and 0.001 at the extremes 0 and 1. -/
theorem fee_formula_correct (p : ℚ) (h0 : 0 ≤ p) (h1 : p ≤ 1) :
    (∀ c : Cache, ∃ f c', calculate_fee p c = .ok (f, c')) ∧
    (∀ c : Cache, cacheLookup c (cacheKey p) = none →
      calculate_fee p c =
        .ok (max (1/1000) (3/100 * (1 - |2 * p - 1|)),
             (cacheKey p, feeFormula p) :: c)) ∧
    feeFormula (1/2) = 3/100 ∧ feeFormula 0 = 1/1000 ∧ feeFormula 1 = 1/1000 :=
  ⟨fun c => calculate_fee_ok_of_range p c h0 h1,
   fun c hm => calculate_fee_miss c h0 h1 hm,
   feeFormula_half, feeFormula_zero, feeFormula_one⟩

/-- C1 witness: at `p = 1/2` on the empty cache the call computes the fee. -/
theorem fee_formula_correct_witness :
    calculate_fee (1/2) [] =
      .ok (max (1/1000) (3/100 * (1 - |2 * (1/2 : ℚ) - 1|)),
           [(cacheKey (1/2), feeFormula (1/2))]) :=
  (fee_formula_correct (1/2) (by norm_num) (by norm_num)).2.1 [] rfl

/-- C2: when both fee computations succeed, `find_arb` returns
`(true, yes_price, no_price)` carrying the two extracted prices exactly when
`total_cost < 1 - min_profit`, and the sentinel `(false, 0, 0)` otherwise. -/
theorem find_arb_decision (parsed : Option Json) (mp : ℚ) (c : Cache)
    (fy fn : ℚ) (c1 c2 : Cache)
    (hy : calculate_fee (extractPrice (parsed.getD Json.null) 0) c = .ok (fy, c1))
    (hn : calculate_fee (extractPrice (parsed.getD Json.null) 1) c1 = .ok (fn, c2)) :
    find_arb parsed mp c =
      .ok (if extractPrice (parsed.getD Json.null) 0 +
              extractPrice (parsed.getD Json.null) 1 +
              extractPrice (parsed.getD Json.null) 0 * fy +
              extractPrice (parsed.getD Json.null) 1 * fn < 1 - mp
           then (true, extractPrice (parsed.getD Json.null) 0,
                 extractPrice (parsed.getD Json.null) 1)
           else (false, 0, 0), c2) :=
  find_arb_eq parsed mp c fy fn c1 c2 hy hn

/-- C2 witness: scenario A (prices 0.40 and 0.55, `min_profit = 0`) signals
arbitrage and returns the two extracted prices. -/
theorem find_arb_decision_witness :
    find_arb (some docA) 0 [] =
      .ok ((true, 2/5, 11/20),
        [(cacheKey (11/20), feeFormula (11/20)),
         (cacheKey (2/5), feeFormula (2/5))]) := by
  have h := find_arb_decision (some docA) 0 []
    (feeFormula (2/5)) (feeFormula (11/20))
    [(cacheKey (2/5), feeFormula (2/5))]
    [(cacheKey (11/20), feeFormula (11/20)), (cacheKey (2/5), feeFormula (2/5))]
    calculate_fee_docA_yes calculate_fee_docA_no
  rw [Option.getD_some, extractPrice_docA_yes, extractPrice_docA_no] at h
  rw [h, if_pos]
  rw [feeFormula_twoFifths, feeFormula_elevenTwentieths]
  norm_num

/-- C3 counterexample: the cache is not transparent as claimed.  A prior call
at price 0.5000004 (within 5e-7 of 0.5, same quantized key 500000) populates
the cache with fee 0.029999976; the subsequent call at price 0.5 is served
that cached value, which differs from the direct recomputation
`feeFormula (1/2) = 0.03`. -/
theorem cache_transparency_counterexample :
    calculate_fee (1/2) (runCalls [5000004/10000000] []) =
      .ok (3749997/125000000, [(500000, 3749997/125000000)]) ∧
    feeFormula (1/2) = 3/100 ∧
    (3749997/125000000 : ℚ) ≠ 3/100 := by
  have h2 : calculate_fee (5000004/10000000) [] =
      .ok (feeFormula (5000004/10000000),
        [(cacheKey (5000004/10000000), feeFormula (5000004/10000000))]) :=
    calculate_fee_miss [] (by norm_num) (by norm_num) rfl
  have h1 : runCalls [5000004/10000000] [] = [(500000, 3749997/125000000)] := by
    simp only [runCalls, h2, cacheKey_nearHalf, feeFormula_nearHalf]
  refine ⟨?_, feeFormula_half, by norm_num⟩
  rw [h1]
  refine calculate_fee_hit (by norm_num) (by norm_num) ?_
  rw [cacheKey_half, cacheLookup, if_pos rfl]

/-- C3 amended: the cache is transparent for every price `p ∈ [0,1]` and
every prior sequence of `calculate_fee` calls in which each earlier price
either equals `p` or quantizes to a different cache key than `p`: the call at
`p` then returns exactly the direct, cache-bypassing recomputation
`feeFormula p`. -/
theorem cache_transparent_amended (p : ℚ) (h0 : 0 ≤ p) (h1 : p ≤ 1)
    (ps : List ℚ) (hps : ∀ q ∈ ps, q = p ∨ cacheKey q ≠ cacheKey p) :
    ∃ c', calculate_fee p (runCalls ps []) = .ok (feeFormula p, c') := by
  rcases runCalls_key_inv p ps hps [] (Or.inl rfl) with hn | hs
  · exact ⟨_, calculate_fee_miss _ h0 h1 hn⟩
  · exact ⟨_, calculate_fee_hit h0 h1 hs⟩

/-- C3 amended, witness: a repeated call at `p = 1/2` still returns the
direct recomputation. -/
theorem cache_transparent_amended_witness :
    ∃ c', calculate_fee (1/2) (runCalls [1/2] []) = .ok (feeFormula (1/2), c') :=
  cache_transparent_amended (1/2) (by norm_num) (by norm_num) [1/2]
    (fun q hq => Or.inl (List.mem_singleton.mp hq))

/-- C4: `calculate_fee` fails with `outOfRange` carrying the offending price
precisely when the price lies outside `[0,1]`, and succeeds (no clamping, no
silent correction) on every in-range price. -/
theorem fee_out_of_range_iff (p : ℚ) (c : Cache) :
    (calculate_fee p c = .error (.outOfRange p) ↔ (p < 0 ∨ 1 < p)) ∧
    (0 ≤ p → p ≤ 1 → ∃ f c', calculate_fee p c = .ok (f, c')) := by
  constructor
  · constructor
    · intro h
      by_contra hp
      push_neg at hp
      obtain ⟨f, c', hok⟩ := calculate_fee_ok_of_range p c hp.1 hp.2
      rw [hok] at h
      exact Except.noConfusion h
    · intro hp
      rw [calculate_fee, if_pos hp]
  · exact calculate_fee_ok_of_range p c

/-- C4 witness: price 1.1 fails with `outOfRange 1.1`; price 0.5 succeeds. -/
theorem fee_out_of_range_iff_witness :
    calculate_fee (11/10) [] = .error (.outOfRange (11/10)) ∧
    ∃ f c', calculate_fee (1/2) [] = .ok (f, c') :=
  ⟨(fee_out_of_range_iff (11/10) []).1.mpr (by norm_num),
   (fee_out_of_range_iff (1/2) []).2 (by norm_num) (by norm_num)⟩

/-- C5: an unparseable document (`parsed = none`, treated as `Null`) or a
document whose `rewards[idx].price` field is absent or not numeric defaults
that side's price to 1; in particular the empty object `{}` gives both
defaults, a total cost of 2.002, and `found = false`. -/
theorem find_arb_default_prices :
    (∀ idx, extractPrice ((none : Option Json).getD Json.null) idx = 1) ∧
    (∀ (v : Json) (idx : Nat),
      ((((v.getField "rewards").getIdx idx).getField "price").asNum) = none →
      extractPrice v idx = 1) ∧
    (∀ idx, extractPrice (Json.obj []) idx = 1) ∧
    calculate_total_cost 1 1 [] =
      .ok ((1/1000, 1/1000, 2002/1000), [(1000000, 1/1000)]) ∧
    (∀ mp : ℚ, 0 ≤ mp →
      find_arb (some (Json.obj [])) mp [] =
        .ok ((false, 0, 0), [(1000000, 1/1000)])) := by
  have hf1 : calculate_fee 1 [] = .ok (1/1000, [(1000000, 1/1000)]) := by
    rw [calculate_fee_miss [] (by norm_num) (by norm_num) rfl,
      cacheKey_one, feeFormula_one]
  have hf2 : calculate_fee 1 [(1000000, 1/1000)] =
      .ok (1/1000, [(1000000, 1/1000)]) := by
    refine calculate_fee_hit (by norm_num) (by norm_num) ?_
    rw [cacheKey_one, cacheLookup, if_pos rfl]
  refine ⟨fun idx => extractPrice_null idx, ?_, extractPrice_emptyObj, ?_, ?_⟩
  · intro v idx h
    rw [extractPrice, h]
    rfl
  · simp only [calculate_total_cost, hf1, hf2]
    norm_num
  · intro mp hmp
    rw [find_arb]
    simp only [Option.getD_some, extractPrice_emptyObj, hf1, hf2]
    split
    · rename_i hlt
      exfalso
      linarith
    · rfl

/-- C5 witness: `{}` with `min_profit = 0` yields no arbitrage. -/
theorem find_arb_default_prices_witness :
    find_arb (some (Json.obj [])) 0 [] = .ok ((false, 0, 0), [(1000000, 1/1000)]) :=
  find_arb_default_prices.2.2.2.2 0 le_rfl

/-- C6: `calculate_total_cost` returns the two fees obtained from
`calculate_fee` together with `y + n + y*fee_y + n*fee_n`, propagates an
`OutOfRange` failure from either leg, and on `(0.5, 0.5)` returns
`(0.03, 0.03, 1.03)`. -/
theorem calculate_total_cost_correct (y n : ℚ) (c : Cache) :
    (∀ fy fn c1 c2, calculate_fee y c = .ok (fy, c1) →
      calculate_fee n c1 = .ok (fn, c2) →
      calculate_total_cost y n c =
        .ok ((fy, fn, y + n + y * fy + n * fn), c2)) ∧
    (0 ≤ y → y ≤ 1 → 0 ≤ n → n ≤ 1 →
      ∃ r c2, calculate_total_cost y n c = .ok (r, c2)) ∧
    (∀ e, calculate_fee y c = .error e → calculate_total_cost y n c = .error e) ∧
    (∀ fy c1 e, calculate_fee y c = .ok (fy, c1) → calculate_fee n c1 = .error e →
      calculate_total_cost y n c = .error e) ∧
    calculate_total_cost (1/2) (1/2) [] =
      .ok ((3/100, 3/100, 103/100), [(500000, 3/100)]) := by
  have hg1 : calculate_fee (1/2) [] = .ok (3/100, [(500000, 3/100)]) := by
    rw [calculate_fee_miss [] (by norm_num) (by norm_num) rfl,
      cacheKey_half, feeFormula_half]
  have hg2 : calculate_fee (1/2) [(500000, 3/100)] =
      .ok (3/100, [(500000, 3/100)]) := by
    refine calculate_fee_hit (by norm_num) (by norm_num) ?_
    rw [cacheKey_half, cacheLookup, if_pos rfl]
  refine ⟨?_, ?_, ?_, ?_, ?_⟩
  · intro fy fn c1 c2 hy hn
    simp only [calculate_total_cost, hy, hn]
  · intro hy0 hy1 hn0 hn1
    obtain ⟨fy, c1, hy⟩ := calculate_fee_ok_of_range y c hy0 hy1
    obtain ⟨fn, c2, hn⟩ := calculate_fee_ok_of_range n c1 hn0 hn1
    exact ⟨(fy, fn, y + n + y * fy + n * fn), c2,
      by simp only [calculate_total_cost, hy, hn]⟩
  · intro e hy
    simp only [calculate_total_cost, hy]
  · intro fy c1 e hy hn
    simp only [calculate_total_cost, hy, hn]
  · simp only [calculate_total_cost, hg1, hg2]
    norm_num

/-- C6 witness: the generic triple shape at prices (0.40, 0.55) on the empty
cache. -/
theorem calculate_total_cost_correct_witness :
    calculate_total_cost (2/5) (11/20) [] =
      .ok ((feeFormula (2/5), feeFormula (11/20),
            2/5 + 11/20 + (2/5) * feeFormula (2/5) + (11/20) * feeFormula (11/20)),
           [(cacheKey (11/20), feeFormula (11/20)),
            (cacheKey (2/5), feeFormula (2/5))]) :=
  (calculate_total_cost_correct (2/5) (11/20) []).1 _ _ _ _
    calculate_fee_docA_yes calculate_fee_docA_no

/-- C7: after any prior sequence of calls starting from the empty cache, a
successful `calculate_fee` at `p ∈ [0,1]` returns a fee in `[0.001, 0.03]`. -/
theorem fee_within_bounds (prior : List ℚ) (p : ℚ) (_h0 : 0 ≤ p) (_h1 : p ≤ 1)
    (f : ℚ) (c' : Cache)
    (h : calculate_fee p (runCalls prior []) = .ok (f, c')) :
    1/1000 ≤ f ∧ f ≤ 3/100 := by
  obtain ⟨-, q, -, -, hq⟩ :=
    calculate_fee_cacheOK (runCalls_cacheOK prior [] cacheOK_nil) h
  exact ⟨hq ▸ feeFormula_lower q, hq ▸ feeFormula_upper q⟩

/-- C7 witness: the fee computed at `p = 1/2` on the fresh cache is in
bounds. -/
theorem fee_within_bounds_witness :
    1/1000 ≤ feeFormula (1/2) ∧ feeFormula (1/2) ≤ 3/100 :=
  fee_within_bounds [] (1/2) (by norm_num) (by norm_num) (feeFormula (1/2))
    ((cacheKey (1/2), feeFormula (1/2)) :: runCalls [] [])
    (calculate_fee_miss (runCalls [] []) (by norm_num) (by norm_num) rfl)

/-- C8: the fee is symmetric around the midpoint: for `p ∈ [0,1]` the formula
value at `p` equals the value at `1 - p` exactly, and two fresh (cache-miss)
`calculate_fee` computations at `p` and `1 - p` return equal fees. -/
theorem fee_symmetric (p : ℚ) (h0 : 0 ≤ p) (h1 : p ≤ 1) :
    feeFormula p = feeFormula (1 - p) ∧
    ∀ c : Cache, cacheLookup c (cacheKey p) = none →
      cacheLookup c (cacheKey (1 - p)) = none →
      ∀ f c' f2 c2, calculate_fee p c = .ok (f, c') →
        calculate_fee (1 - p) c = .ok (f2, c2) → f = f2 := by
  have habs : |2 * (1 - p) - 1| = |2 * p - 1| := by
    rw [show 2 * (1 - p) - 1 = -(2 * p - 1) by ring, abs_neg]
  have hsym : feeFormula p = feeFormula (1 - p) := by
    rw [feeFormula, feeFormula, habs]
  refine ⟨hsym, ?_⟩
  intro c hcp hcq f c' f2 c2 hf hf2
  rw [calculate_fee_miss c h0 h1 hcp] at hf
  rw [calculate_fee_miss c (by linarith) (by linarith) hcq] at hf2
  have hfe : feeFormula p = f := congrArg Prod.fst (Except.ok.inj hf)
  have hfe2 : feeFormula (1 - p) = f2 := congrArg Prod.fst (Except.ok.inj hf2)
  rw [← hfe, ← hfe2, hsym]

/-- C8 witness: fresh computations at 0.40 and at 0.60 agree. -/
theorem fee_symmetric_witness : feeFormula (2/5) = feeFormula (1 - 2/5) :=
  (fee_symmetric (2/5) (by norm_num) (by norm_num)).2 [] rfl rfl
    (feeFormula (2/5)) ((cacheKey (2/5), feeFormula (2/5)) :: [])
    (feeFormula (1 - 2/5)) ((cacheKey (1 - 2/5), feeFormula (1 - 2/5)) :: [])
    (calculate_fee_miss [] (by norm_num) (by norm_num) rfl)
    (calculate_fee_miss [] (by norm_num) (by norm_num) rfl)

/-- C9: a cache binding, once present, survives any sequence of later
`calculate_fee` calls unchanged (a call whose price quantizes to a present
key is a hit and does not insert); repeating a call returns the identical
fee and the identical cache (so `get_cache_size` does not grow), and
`clear_fee_cache` leaves size 0. -/
theorem cache_write_once :
    (∀ (k : ℤ) (v : ℚ) (c : Cache), cacheLookup c k = some v →
      ∀ ps : List ℚ, cacheLookup (runCalls ps c) k = some v) ∧
    (∀ (p : ℚ) (c : Cache) (f : ℚ) (c' : Cache),
      calculate_fee p c = .ok (f, c') → calculate_fee p c' = .ok (f, c')) ∧
    (∀ (p : ℚ) (c : Cache) (f : ℚ) (c' : Cache),
      calculate_fee p c = .ok (f, c') →
      ∀ f2 c2, calculate_fee p c' = .ok (f2, c2) →
        f2 = f ∧ get_cache_size c2 = get_cache_size c') ∧
    (∀ c : Cache, get_cache_size (clear_fee_cache c) = 0) := by
  have hsecond : ∀ (p : ℚ) (c : Cache) (f : ℚ) (c' : Cache),
      calculate_fee p c = .ok (f, c') → calculate_fee p c' = .ok (f, c') := by
    intro p c f c' h
    obtain ⟨h0, h1⟩ := calculate_fee_ok_range h
    rcases hc : cacheLookup c (cacheKey p) with _ | cached
    · rw [calculate_fee_miss c h0 h1 hc] at h
      have hf : feeFormula p = f := congrArg Prod.fst (Except.ok.inj h)
      have hc' : (cacheKey p, feeFormula p) :: c = c' :=
        congrArg Prod.snd (Except.ok.inj h)
      subst hc'
      refine calculate_fee_hit h0 h1 ?_
      rw [cacheLookup, if_pos rfl, hf]
    · rw [calculate_fee_hit h0 h1 hc] at h
      have hf : cached = f := congrArg Prod.fst (Except.ok.inj h)
      have hc' : c = c' := congrArg Prod.snd (Except.ok.inj h)
      subst hc'
      exact calculate_fee_hit h0 h1 (by rw [hc, hf])
  refine ⟨fun k v c hc ps => runCalls_preserves_lookup ps c hc, hsecond, ?_,
    fun c => rfl⟩
  intro p c f c' h f2 c2 h2
  rw [hsecond p c f c' h] at h2
  have hf2 : f = f2 := congrArg Prod.fst (Except.ok.inj h2)
  have hc2 : c' = c2 := congrArg Prod.snd (Except.ok.inj h2)
  exact ⟨hf2.symm, by rw [← hc2]⟩

/-- C9 witness: the second call at `p = 1/2` is a hit that returns the
stored fee and leaves the cache unchanged. -/
theorem cache_write_once_witness :
    calculate_fee (1/2) [(cacheKey (1/2), feeFormula (1/2))] =
      .ok (feeFormula (1/2), [(cacheKey (1/2), feeFormula (1/2))]) :=
  cache_write_once.2.1 (1/2) [] (feeFormula (1/2))
    [(cacheKey (1/2), feeFormula (1/2))]
    (calculate_fee_miss [] (by norm_num) (by norm_num) rfl)

/-- C10: whenever `find_arb` returns with `found = true`, the two returned
prices both lie in `[0,1]` — they passed `calculate_fee`'s validation. -/
theorem find_arb_true_prices_in_range (parsed : Option Json) (mp : ℚ)
    (c : Cache) (y n : ℚ) (c' : Cache)
    (h : find_arb parsed mp c = .ok ((true, y, n), c')) :
    0 ≤ y ∧ y ≤ 1 ∧ 0 ≤ n ∧ n ≤ 1 := by
  rcases hy : calculate_fee (extractPrice (parsed.getD Json.null) 0) c
      with e | ⟨fy, c1⟩
  · rw [find_arb_error_yes parsed mp c e hy] at h
    exact absurd h (by simp)
  · rcases hn : calculate_fee (extractPrice (parsed.getD Json.null) 1) c1
        with e | ⟨fn, c2⟩
    · rw [find_arb_error_no parsed mp c fy c1 e hy hn] at h
      exact absurd h (by simp)
    · obtain ⟨hy0, hy1⟩ := calculate_fee_ok_range hy
      obtain ⟨hn0, hn1⟩ := calculate_fee_ok_range hn
      rw [find_arb_eq parsed mp c fy fn c1 c2 hy hn] at h
      by_cases hcond : extractPrice (parsed.getD Json.null) 0 +
          extractPrice (parsed.getD Json.null) 1 +
          extractPrice (parsed.getD Json.null) 0 * fy +
          extractPrice (parsed.getD Json.null) 1 * fn < 1 - mp
      · rw [if_pos hcond] at h
        have hyy : extractPrice (parsed.getD Json.null) 0 = y :=
          congrArg (fun r => r.1.2.1) (Except.ok.inj h)
        have hnn : extractPrice (parsed.getD Json.null) 1 = n :=
          congrArg (fun r => r.1.2.2) (Except.ok.inj h)
        rw [← hyy, ← hnn]
        exact ⟨hy0, hy1, hn0, hn1⟩
      · rw [if_neg hcond] at h
        have hb : (false : Bool) = true :=
          congrArg (fun r => r.1.1) (Except.ok.inj h)
        exact absurd hb (by simp)

/-- C10 witness: scenario A's positive result carries in-range prices. -/
theorem find_arb_true_prices_in_range_witness :
    (0:ℚ) ≤ 2/5 ∧ (2/5:ℚ) ≤ 1 ∧ (0:ℚ) ≤ 11/20 ∧ (11/20:ℚ) ≤ 1 :=
  find_arb_true_prices_in_range (some docA) 0 [] (2/5) (11/20)
    [(cacheKey (11/20), feeFormula (11/20)), (cacheKey (2/5), feeFormula (2/5))]
    find_arb_docA
